import Mathlib

/-!
# Verification of the key/value splitter processor

Shallow embedding of `src/plugins/processor/split/keyvalue/key_value_splitter.go`
(package `kvsplitter`). Go strings are modelled as `List Char` (all inputs in
play are ASCII, so Go's byte indices and our list indices agree); Go's `int`
indices that can be `-1` are modelled as `Int`. Go slice expressions that can
panic are modelled with `Option`: `none` stands for a `slice bounds out of
range` panic. The `for` loop of `splitKeyValue` is modelled with explicit
fuel; `none` from the fuel-indexed loop at every fuel means the loop never
exits (the code can genuinely diverge, see the development below).

Diagnostic warnings (`logger.Warningf`) are fire-and-forget observability
signals that never influence the record or control flow; they are not
modelled.
-/

/-- Model of one `protocol.Log_Content` entry: an ordered record field. -/
structure LogContent where
  key : List Char
  value : List Char
deriving DecidableEq, Repr

/-- Model of the `KeyValueSplitter` configuration struct (the `pipeline.Context`
field is an external collaborator and is not modelled). -/
structure KeyValueSplitter where
  sourceKey : List Char
  delimiter : List Char
  separator : List Char
  keepSource : Bool
  emptyKeyPrefix : List Char
  noSeparatorKeyPrefix : List Char
  quoteFlag : Bool
  quote : List Char
  discardWhenSeparatorNotFound : Bool
  errIfSourceKeyNotFound : Bool
  errIfSeparatorNotFound : Bool
  errIfKeyIsEmpty : Bool

/-- Decimal digit character, used by `itoa`. -/
def digitChar : Nat → Char
  | 0 => '0'
  | 1 => '1'
  | 2 => '2'
  | 3 => '3'
  | 4 => '4'
  | 5 => '5'
  | 6 => '6'
  | 7 => '7'
  | 8 => '8'
  | _ => '9'

/-- Fuelled helper for `itoa` (structural recursion so that the kernel can
evaluate it inside `decide`). -/
def itoaAux : Nat → Nat → List Char
  | 0, _ => []
  | fuel + 1, n => if n < 10 then [digitChar n] else itoaAux fuel (n / 10) ++ [digitChar (n % 10)]

/-- Model of `strconv.Itoa` on the (always nonnegative) synthesized-key
counters. -/
def itoa (n : Nat) : List Char := itoaAux (n + 1) n

/-- Model of Go `strings.Index`: the first index at which `pat` occurs as a
contiguous sublist of `hay`, `none` when there is no occurrence.
`strIndex hay [] = some 0`, exactly as in Go. -/
def strIndex : List Char → List Char → Option Nat
  | [], pat => if pat.isPrefixOf [] then some 0 else none
  | c :: t, pat =>
    if pat.isPrefixOf (c :: t) then some 0
    else (strIndex t pat).map (fun k => k + 1)

/-- Go `strings.Index` as the `Int` the source manipulates: `-1` for "not
found". -/
def intIndex (hay pat : List Char) : Int :=
  match strIndex hay pat with
  | none => -1
  | some k => (k : Int)

/-- Go `strings.Contains` (defined in Go as `Index(s, substr) >= 0`). -/
def goContains (hay pat : List Char) : Bool := (strIndex hay pat).isSome

/-- Go slice expression `s[a:]` on a string: defined for `0 ≤ a ≤ len s`,
a bounds panic (`none`) otherwise. -/
def goSliceFrom (s : List Char) (a : Int) : Option (List Char) :=
  if 0 ≤ a ∧ a ≤ (s.length : Int) then some (s.drop a.toNat) else none

/-- Go slice expression `s[:b]` on a string: defined for `0 ≤ b ≤ len s`,
a bounds panic (`none`) otherwise. -/
def goSliceTo (s : List Char) (b : Int) : Option (List Char) :=
  if 0 ≤ b ∧ b ≤ (s.length : Int) then some (s.take b.toNat) else none

/-- Model of `(*KeyValueSplitter).getValue` (lines 165–173): when quoting is
enabled and the value both starts and ends with the quote string and is at
least twice the quote's length, strip one leading and one trailing quote. -/
def getValue (s : KeyValueSplitter) (value : List Char) : List Char :=
  if s.quoteFlag = true ∧ s.quote ≠ [] then
    if 2 * s.quote.length ≤ value.length ∧ s.quote.isPrefixOf value = true ∧
        List.isSuffixOf s.quote value = true then
      (value.drop s.quote.length).take (value.length - 2 * s.quote.length)
    else value
  else value

/-- Model of `(*KeyValueSplitter).concatQuotePair` (lines 148–163).  The Go
code is

    if s.QuoteFlag && len(s.Quote) > 0 && !strings.HasSuffix(pair, s.Quote) {
        lastQuote := strings.Index(content[dIdx+1:], s.Quote)
        if strings.Index(pair, s.Separator+s.Quote) > 0 || strings.HasPrefix(pair, s.Quote) {
            lastQuote += len(s.Separator + s.Quote)
            if lastQuote > 0 {
                dIdx += lastQuote
                pair = content[:dIdx]
            }
        }
    }
    return pair, dIdx

`none` models a slice-bounds panic (`content[dIdx+1:]` or `content[:dIdx]`
out of range). -/
def concatQuotePair (s : KeyValueSplitter) (pair content : List Char) (dIdx : Int) :
    Option (List Char × Int) :=
  if s.quoteFlag = true ∧ s.quote ≠ [] ∧ List.isSuffixOf s.quote pair = false then
    match goSliceFrom content (dIdx + 1) with
    | none => none
    | some rest =>
      let lastQuote : Int := intIndex rest s.quote
      if 0 < intIndex pair (s.separator ++ s.quote) ∨ s.quote.isPrefixOf pair = true then
        let lastQuote2 : Int := lastQuote + ((s.separator.length : Int) + (s.quote.length : Int))
        if 0 < lastQuote2 then
          match goSliceTo content (dIdx + lastQuote2) with
          | none => none
          | some newPair => some (newPair, dIdx + lastQuote2)
        else some (pair, dIdx)
      else some (pair, dIdx)
  else some (pair, dIdx)

/-- Model of the body of the loop of `splitKeyValue` that handles one
extracted `pair` (lines 113–137): the fields appended for this pair (one or
zero) and the updated `emptyKeyIndex` / `noSeparatorKeyIndex` counters. -/
def procPair (s : KeyValueSplitter) (pair : List Char) (eIdx nIdx : Nat) :
    List LogContent × Nat × Nat :=
  match strIndex pair s.separator with
  | none =>
    if s.discardWhenSeparatorNotFound = true then ([], eIdx, nIdx)
    else ([⟨s.noSeparatorKeyPrefix ++ itoa nIdx, getValue s pair⟩], eIdx, nIdx + 1)
  | some pos =>
    let key := pair.take pos
    let value := getValue s (pair.drop (pos + s.separator.length))
    if key = [] then ([⟨s.emptyKeyPrefix ++ itoa eIdx, value⟩], eIdx + 1, nIdx)
    else ([⟨key, value⟩], eIdx, nIdx)

/-- Outcome of running the `splitKeyValue` loop to completion. -/
inductive KVResult where
  | ok (contents : List LogContent)
  | panicked
deriving DecidableEq, Repr

/-- Result of one iteration of the `splitKeyValue` loop: the loop exits
normally with the record so far, panics, or continues with an updated state
`(dIdx, content, emptyKeyIndex, noSeparatorKeyIndex, log.Contents)`. -/
inductive StepRes where
  | stepDone (acc : List LogContent)
  | stepPanic
  | stepNext (dIdx : Int) (content : List Char) (eIdx nIdx : Nat) (acc : List LogContent)
deriving DecidableEq, Repr

/-- One iteration of the loop of `(*KeyValueSplitter).splitKeyValue`
(lines 99–146).  The Go loop is

    dIdx := 0
    for dIdx < len(content) {
        dIdx = strings.Index(content, s.Delimiter)
        var pair string
        if dIdx == -1 { pair = content } else { pair = content[:dIdx] }
        pair, dIdx = s.concatQuotePair(pair, content, dIdx)
        ... append fields for pair (see procPair) ...
        if dIdx == -1 { break }
        if dIdx+len(s.Delimiter) <= len(content) {
            content = content[dIdx+len(s.Delimiter):]
        }
    }

Note the guard compares the delimiter index `dIdx` left by the previous
iteration against the current (already shrunk) `content`; an iteration whose
re-indexed `dIdx` does not satisfy `dIdx+len(Delimiter) <= len(content)`
leaves `content` unchanged. -/
def stepKV (s : KeyValueSplitter) (dIdx0 : Int) (content : List Char)
    (eIdx nIdx : Nat) (acc : List LogContent) : StepRes :=
  if dIdx0 < (content.length : Int) then
    match concatQuotePair s
        (if intIndex content s.delimiter = -1 then content
         else content.take (intIndex content s.delimiter).toNat)
        content (intIndex content s.delimiter) with
    | none => StepRes.stepPanic
    | some (pair, dIdx) =>
      match procPair s pair eIdx nIdx with
      | (fs, eIdx2, nIdx2) =>
        if dIdx = -1 then StepRes.stepDone (acc ++ fs)
        else
          StepRes.stepNext dIdx
            (if dIdx + (s.delimiter.length : Int) ≤ (content.length : Int) then
              content.drop (dIdx + (s.delimiter.length : Int)).toNat
            else content)
            eIdx2 nIdx2 (acc ++ fs)
  else StepRes.stepDone acc

/-- Fuel-indexed run of the `splitKeyValue` loop: iterate `stepKV` until the
loop exits.  `none` means the fuel ran out before the loop exited. -/
def loopKV (s : KeyValueSplitter) :
    Nat → Int → List Char → Nat → Nat → List LogContent → Option KVResult
  | 0, _, _, _, _, _ => none
  | fuel + 1, dIdx0, content, eIdx, nIdx, acc =>
    match stepKV s dIdx0 content eIdx nIdx acc with
    | StepRes.stepDone acc2 => some (KVResult.ok acc2)
    | StepRes.stepPanic => some KVResult.panicked
    | StepRes.stepNext dIdx2 content2 eIdx2 nIdx2 acc2 =>
      loopKV s fuel dIdx2 content2 eIdx2 nIdx2 acc2

/-- Run of `splitKeyValue` appending to an existing record `acc` (as the
source does to `log.Contents`). Any terminating run of the loop exits within
`content.length + 2` frames (each continuing iteration either strictly
shrinks `content` or repeats the same state forever), so this fuel is
canonical: `none` exactly when the Go loop never exits. -/
def splitKeyValueFrom (s : KeyValueSplitter) (content : List Char) (acc : List LogContent) :
    Option KVResult :=
  loopKV s (content.length + 2) 0 content 0 0 acc

/-- Model of `(*KeyValueSplitter).splitKeyValue` on an empty record. -/
def splitKeyValue (s : KeyValueSplitter) (content : List Char) : Option KVResult :=
  splitKeyValueFrom s content []

/-- The `splitKeyValue` loop never exits on this configuration and content:
every fuel runs out. -/
def splitDiverges (s : KeyValueSplitter) (content : List Char) : Prop :=
  ∀ fuel, loopKV s fuel 0 content 0 0 [] = none

/-- First record field matching the source key, with its index: the loop
`for idx, content := range log.Contents` of `processLog` with the match
condition `len(s.SourceKey) == 0 || s.SourceKey == content.Key`
(lines 84–86). -/
def findSource (s : KeyValueSplitter) : Nat → List LogContent → Option (Nat × LogContent)
  | _, [] => none
  | i, c :: t =>
    if s.sourceKey = [] ∨ s.sourceKey = c.key then some (i, c) else findSource s (i + 1) t

/-- Model of `(*KeyValueSplitter).processLog` (lines 82–97): locate the first
field matching the source key; when found, optionally remove it
(`log.Contents = append(log.Contents[:idx], log.Contents[idx+1:]...)`) and
run `splitKeyValue` on its value, appending to the record; when not found the
record is returned unchanged (the `ErrIfSourceKeyNotFound` warning is pure
observability). -/
def processLog (s : KeyValueSplitter) (contents : List LogContent) : Option KVResult :=
  match findSource s 0 contents with
  | none => some (KVResult.ok contents)
  | some (i, c) =>
    let base := if s.keepSource = true then contents else contents.eraseIdx i
    splitKeyValueFrom s c.value base

/-- The configuration built by `newKeyValueSplitter` (lines 175–188): the
plugin's default configuration.  Unset Go fields hold their zero values
(`SourceKey`, `Quote` empty, `QuoteFlag` false). -/
def defaultSplitter : KeyValueSplitter where
  sourceKey := []
  delimiter := "\t".toList
  separator := ":".toList
  keepSource := true
  emptyKeyPrefix := "empty_key_".toList
  noSeparatorKeyPrefix := "no_separator_key_".toList
  quoteFlag := false
  quote := []
  discardWhenSeparatorNotFound := false
  errIfSourceKeyNotFound := true
  errIfSeparatorNotFound := true
  errIfKeyIsEmpty := true

/-!
## Ghost-instrumented copy of the loop

`procPairT`, `stepKVT` and `loopKVT` are `procPair`, `stepKV` and `loopKV`
with every appended field tagged by the branch of the source that appended
it: the ordinary key/value branch, the empty-key synthesis branch
(`s.EmptyKeyPrefix + strconv.Itoa(emptyKeyIndex)`), or the no-separator
synthesis branch (`s.NoSeparatorKeyPrefix + strconv.Itoa(noSeparatorKeyIndex)`).
Erasing the tags recovers the plain model exactly (`loopKVT_erase`); the
tags only make "field synthesized by branch X" speakable, which the claim
about the per-call counters needs. -/

/-- Origin branch of an appended field. -/
inductive PairTag where
  | plainTag
  | emptyTag
  | noSepTag
deriving DecidableEq, Repr

/-- Tagged copy of `procPair`. -/
def procPairT (s : KeyValueSplitter) (pair : List Char) (eIdx nIdx : Nat) :
    List (LogContent × PairTag) × Nat × Nat :=
  match strIndex pair s.separator with
  | none =>
    if s.discardWhenSeparatorNotFound = true then ([], eIdx, nIdx)
    else ([(⟨s.noSeparatorKeyPrefix ++ itoa nIdx, getValue s pair⟩, PairTag.noSepTag)],
      eIdx, nIdx + 1)
  | some pos =>
    let key := pair.take pos
    let value := getValue s (pair.drop (pos + s.separator.length))
    if key = [] then ([(⟨s.emptyKeyPrefix ++ itoa eIdx, value⟩, PairTag.emptyTag)], eIdx + 1, nIdx)
    else ([(⟨key, value⟩, PairTag.plainTag)], eIdx, nIdx)

/-- Tagged copy of `StepRes`. -/
inductive StepResT where
  | stepDoneT (acc : List (LogContent × PairTag))
  | stepPanicT
  | stepNextT (dIdx : Int) (content : List Char) (eIdx nIdx : Nat)
      (acc : List (LogContent × PairTag))
deriving DecidableEq, Repr

/-- Tagged copy of `stepKV`. -/
def stepKVT (s : KeyValueSplitter) (dIdx0 : Int) (content : List Char)
    (eIdx nIdx : Nat) (acc : List (LogContent × PairTag)) : StepResT :=
  if dIdx0 < (content.length : Int) then
    match concatQuotePair s
        (if intIndex content s.delimiter = -1 then content
         else content.take (intIndex content s.delimiter).toNat)
        content (intIndex content s.delimiter) with
    | none => StepResT.stepPanicT
    | some (pair, dIdx) =>
      match procPairT s pair eIdx nIdx with
      | (fs, eIdx2, nIdx2) =>
        if dIdx = -1 then StepResT.stepDoneT (acc ++ fs)
        else
          StepResT.stepNextT dIdx
            (if dIdx + (s.delimiter.length : Int) ≤ (content.length : Int) then
              content.drop (dIdx + (s.delimiter.length : Int)).toNat
            else content)
            eIdx2 nIdx2 (acc ++ fs)
  else StepResT.stepDoneT acc

/-- Tagged copy of `KVResult`. -/
inductive KVResultT where
  | okT (contents : List (LogContent × PairTag))
  | panickedT
deriving DecidableEq, Repr

/-- Tagged copy of `loopKV`. -/
def loopKVT (s : KeyValueSplitter) :
    Nat → Int → List Char → Nat → Nat → List (LogContent × PairTag) → Option KVResultT
  | 0, _, _, _, _, _ => none
  | fuel + 1, dIdx0, content, eIdx, nIdx, acc =>
    match stepKVT s dIdx0 content eIdx nIdx acc with
    | StepResT.stepDoneT acc2 => some (KVResultT.okT acc2)
    | StepResT.stepPanicT => some KVResultT.panickedT
    | StepResT.stepNextT dIdx2 content2 eIdx2 nIdx2 acc2 =>
      loopKVT s fuel dIdx2 content2 eIdx2 nIdx2 acc2

/-- Tagged copy of `splitKeyValue`. -/
def splitKeyValueT (s : KeyValueSplitter) (content : List Char) : Option KVResultT :=
  loopKVT s (content.length + 2) 0 content 0 0 []

/-- Tag erasure on a loop outcome. -/
def eraseTags : Option KVResultT → Option KVResult
  | none => none
  | some KVResultT.panickedT => some KVResult.panicked
  | some (KVResultT.okT l) => some (KVResult.ok (l.map Prod.fst))

/-- Keys of the fields tagged `t`, in append order. -/
def tagKeys (t : PairTag) : List (LogContent × PairTag) → List (List Char)
  | [] => []
  | (f, tg) :: rest => if tg = t then f.key :: tagKeys t rest else tagKeys t rest

/-!
## Concrete configurations and inputs used by the counterexamples and
witnesses below -/

/-- Quoting enabled with a two-byte delimiter: the configuration of the
divergence counterexample. -/
def cfgDiv : KeyValueSplitter :=
  { defaultSplitter with delimiter := "ab".toList, quoteFlag := true, quote := "q".toList }

/-- Content on which `cfgDiv` loops forever: the quote re-index moves `dIdx`
to `8`, `8+2 > 9` leaves `content` unchanged, and `8 < 9` re-enters the loop
with the identical state. -/
def contentDiv : List Char := "x:qzabuqv".toList

/-- Quoting enabled and `DiscardWhenSeparatorNotFound`: the configuration of
the one-field counterexample. -/
def cfgQDiscard : KeyValueSplitter :=
  { defaultSplitter with
      quoteFlag := true
      quote := "q".toList
      discardWhenSeparatorNotFound := true }

/-- Quoting enabled with a two-byte separator: the configuration of the
`concatQuotePair` out-of-range counterexample. -/
def cfgQ2Sep : KeyValueSplitter :=
  { defaultSplitter with separator := "::".toList, quoteFlag := true, quote := "Q".toList }

/-! ## Basic lemmas about the string primitives -/

theorem strIndex_some_le : ∀ (hay pat : List Char) (k : Nat),
    strIndex hay pat = some k → k + pat.length ≤ hay.length := by
  intro hay
  induction hay with
  | nil =>
    intro pat k h
    simp only [strIndex] at h
    by_cases hp : pat.isPrefixOf ([] : List Char) = true
    · rw [if_pos hp] at h
      injection h with h
      subst h
      simpa using (List.isPrefixOf_iff_prefix.mp hp).length_le
    · rw [if_neg hp] at h
      exact absurd h (by simp)
  | cons c t ih =>
    intro pat k h
    simp only [strIndex] at h
    by_cases hp : pat.isPrefixOf (c :: t) = true
    · rw [if_pos hp] at h
      injection h with h
      subst h
      simpa using (List.isPrefixOf_iff_prefix.mp hp).length_le
    · rw [if_neg hp] at h
      simp only [Option.map_eq_some'] at h
      rcases h with ⟨k1, hk1, rfl⟩
      have := ih pat k1 hk1
      simp only [List.length_cons]
      omega

theorem strIndex_of_isPrefixOf {hay pat : List Char} (hp : pat.isPrefixOf hay = true) :
    strIndex hay pat = some 0 := by
  cases hay <;> simp only [strIndex] <;> rw [if_pos hp]

theorem strIndex_nil_of_ne {pat : List Char} (hp : pat ≠ []) : strIndex [] pat = none := by
  simp only [strIndex]
  rw [if_neg]
  simp [List.isPrefixOf_iff_prefix, hp]

theorem goContains_false_iff {hay pat : List Char} :
    goContains hay pat = false ↔ strIndex hay pat = none := by
  rw [goContains]
  cases strIndex hay pat <;> simp

theorem goContains_true_iff {hay pat : List Char} :
    goContains hay pat = true ↔ ∃ k, strIndex hay pat = some k := by
  rw [goContains]
  cases strIndex hay pat <;> simp

/-! ## Quoting disabled: the quote helpers are the identity -/

theorem concatQuotePair_disabled {s : KeyValueSplitter}
    (hq : s.quoteFlag = false ∨ s.quote = []) (pair content : List Char) (dIdx : Int) :
    concatQuotePair s pair content dIdx = some (pair, dIdx) := by
  rw [concatQuotePair]
  rcases hq with hq | hq <;> simp [hq]

theorem getValue_disabled {s : KeyValueSplitter}
    (hq : s.quoteFlag = false ∨ s.quote = []) (value : List Char) :
    getValue s value = value := by
  rw [getValue]
  rcases hq with hq | hq <;> simp [hq]

/-! ## Structural lemmas about the loop -/

theorem loopKV_succ_done {s : KeyValueSplitter} {fuel : Nat} {d : Int} {c : List Char}
    {e n : Nat} {acc acc2 : List LogContent}
    (hs : stepKV s d c e n acc = StepRes.stepDone acc2) :
    loopKV s (fuel + 1) d c e n acc = some (KVResult.ok acc2) := by
  simp only [loopKV, hs]

theorem loopKV_succ_panic {s : KeyValueSplitter} {fuel : Nat} {d : Int} {c : List Char}
    {e n : Nat} {acc : List LogContent}
    (hs : stepKV s d c e n acc = StepRes.stepPanic) :
    loopKV s (fuel + 1) d c e n acc = some KVResult.panicked := by
  simp only [loopKV, hs]

theorem loopKV_succ_next {s : KeyValueSplitter} {fuel : Nat} {d : Int} {c : List Char}
    {e n : Nat} {acc : List LogContent} {d2 : Int} {c2 : List Char} {e2 n2 : Nat}
    {acc2 : List LogContent}
    (hs : stepKV s d c e n acc = StepRes.stepNext d2 c2 e2 n2 acc2) :
    loopKV s (fuel + 1) d c e n acc = loopKV s fuel d2 c2 e2 n2 acc2 := by
  simp only [loopKV, hs]

theorem stepKV_guard_false {s : KeyValueSplitter} {d : Int} {c : List Char} {e n : Nat}
    {a : List LogContent} (h : ¬ d < (c.length : Int)) :
    stepKV s d c e n a = StepRes.stepDone a := by
  rw [stepKV, if_neg h]

theorem stepKV_done_append {s : KeyValueSplitter} {d : Int} {c : List Char} {e n : Nat}
    {acc acc2 : List LogContent} (h : stepKV s d c e n acc = StepRes.stepDone acc2) :
    ∃ new, acc2 = acc ++ new := by
  rw [stepKV] at h
  split at h
  · split at h
    · exact absurd h (by simp)
    · rename_i pair dIdx heq
      split at h
      · rename_i fs e2 n2 hpp
        split at h
        · injection h with h
          exact ⟨fs, h.symm⟩
        · exact absurd h (by simp)
  · injection h with h
    exact ⟨[], by simp [h]⟩

theorem stepKV_next_append {s : KeyValueSplitter} {d : Int} {c : List Char} {e n : Nat}
    {acc : List LogContent} {d2 : Int} {c2 : List Char} {e2 n2 : Nat} {acc2 : List LogContent}
    (h : stepKV s d c e n acc = StepRes.stepNext d2 c2 e2 n2 acc2) :
    ∃ new, acc2 = acc ++ new := by
  rw [stepKV] at h
  split at h
  · split at h
    · exact absurd h (by simp)
    · rename_i pair dIdx heq
      split at h
      · rename_i fs e2x n2x hpp
        split at h
        · exact absurd h (by simp)
        · injection h with h1 h2 h3 h4 h5
          exact ⟨fs, h5.symm⟩
  · exact absurd h (by simp)

theorem loopKV_mono {s : KeyValueSplitter} :
    ∀ (f1 f2 : Nat), f1 ≤ f2 → ∀ (d : Int) (c : List Char) (e n : Nat)
      (acc : List LogContent) (r : KVResult),
      loopKV s f1 d c e n acc = some r → loopKV s f2 d c e n acc = some r := by
  intro f1
  induction f1 with
  | zero => intro f2 _ d c e n acc r h; exact absurd h (by simp [loopKV])
  | succ f1 ih =>
    intro f2 hle d c e n acc r h
    rcases f2 with _ | f2
    · omega
    cases hs : stepKV s d c e n acc with
    | stepDone acc2 =>
      rw [loopKV_succ_done hs] at h
      rw [loopKV_succ_done hs]
      exact h
    | stepPanic =>
      rw [loopKV_succ_panic hs] at h
      rw [loopKV_succ_panic hs]
      exact h
    | stepNext d2 c2 e2 n2 acc2 =>
      rw [loopKV_succ_next hs] at h
      rw [loopKV_succ_next hs]
      exact ih f2 (by omega) d2 c2 e2 n2 acc2 r h

theorem loopKV_append {s : KeyValueSplitter} :
    ∀ (fuel : Nat) (d : Int) (c : List Char) (e n : Nat) (acc r : List LogContent),
      loopKV s fuel d c e n acc = some (KVResult.ok r) → ∃ new, r = acc ++ new := by
  intro fuel
  induction fuel with
  | zero => intro d c e n acc r h; exact absurd h (by simp [loopKV])
  | succ fuel ih =>
    intro d c e n acc r h
    cases hs : stepKV s d c e n acc with
    | stepDone acc2 =>
      rw [loopKV_succ_done hs] at h
      injection h with h
      injection h with h
      rcases stepKV_done_append hs with ⟨new, hn⟩
      exact ⟨new, by rw [← h, hn]⟩
    | stepPanic =>
      rw [loopKV_succ_panic hs] at h
      exact absurd h (by simp)
    | stepNext d2 c2 e2 n2 acc2 =>
      rw [loopKV_succ_next hs] at h
      rcases ih d2 c2 e2 n2 acc2 r h with ⟨new2, hn2⟩
      rcases stepKV_next_append hs with ⟨new1, hn1⟩
      exact ⟨new1 ++ new2, by rw [hn2, hn1, List.append_assoc]⟩

theorem stepKV_disabled_no_panic {s : KeyValueSplitter}
    (hq : s.quoteFlag = false ∨ s.quote = []) {d : Int} {c : List Char} {e n : Nat}
    {acc : List LogContent} : stepKV s d c e n acc ≠ StepRes.stepPanic := by
  intro h
  rw [stepKV] at h
  split at h
  · rw [concatQuotePair_disabled hq] at h
    simp only [] at h
    split at h
    · exact absurd h (by simp)
    · exact absurd h (by simp)
  · exact absurd h (by simp)

theorem stepKV_disabled_none {s : KeyValueSplitter}
    (hq : s.quoteFlag = false ∨ s.quote = []) {d : Int} {c : List Char} {e n : Nat}
    {a : List LogContent} (hguard : d < (c.length : Int))
    (hsi : strIndex c s.delimiter = none) :
    stepKV s d c e n a = StepRes.stepDone (a ++ (procPair s c e n).1) := by
  rw [stepKV, if_pos hguard]
  simp only [intIndex, hsi]
  rw [concatQuotePair_disabled hq]
  simp only []
  rcases hpp : procPair s c e n with ⟨fs, e2, n2⟩
  simp [hpp]

theorem stepKV_disabled_some {s : KeyValueSplitter}
    (hq : s.quoteFlag = false ∨ s.quote = []) {d : Int} {c : List Char} {e n : Nat}
    {a : List LogContent} {k : Nat} (hguard : d < (c.length : Int))
    (hsi : strIndex c s.delimiter = some k) :
    stepKV s d c e n a = StepRes.stepNext (k : Int)
      (if k + s.delimiter.length ≤ c.length then c.drop (k + s.delimiter.length) else c)
      (procPair s (c.take k) e n).2.1 (procPair s (c.take k) e n).2.2
      (a ++ (procPair s (c.take k) e n).1) := by
  rw [stepKV, if_pos hguard]
  simp only [intIndex, hsi]
  rw [concatQuotePair_disabled hq]
  simp only []
  rw [if_neg (by omega : ¬ ((k : Int) = -1))]
  rw [if_neg (by omega : ¬ ((k : Int) = -1))]
  have h1 : ((k : Int) + (s.delimiter.length : Int) ≤ (c.length : Int)) ↔
      k + s.delimiter.length ≤ c.length := by omega
  have h2 : ((k : Int) + (s.delimiter.length : Int)).toNat = k + s.delimiter.length := by omega
  have h3 : ((k : Int)).toNat = k := by omega
  rcases hpp : procPair s (c.take k) e n with ⟨fs, e2, n2⟩
  simp [h1, h2, h3, hpp]

theorem loopKV_term {s : KeyValueSplitter}
    (hq : s.quoteFlag = false ∨ s.quote = []) (hd : s.delimiter ≠ []) :
    ∀ (fuel : Nat) (c : List Char), c.length < fuel → ∀ (d : Int) (e n : Nat)
      (acc : List LogContent),
      ∃ out, loopKV s fuel d c e n acc = some (KVResult.ok out) := by
  intro fuel
  induction fuel with
  | zero => intro c h; omega
  | succ fuel ih =>
    intro c hlen d e n acc
    by_cases hguard : d < (c.length : Int)
    · rcases hsi : strIndex c s.delimiter with _ | k
      · exact ⟨acc ++ (procPair s c e n).1,
          loopKV_succ_done (stepKV_disabled_none hq hguard hsi)⟩
      · have hk := strIndex_some_le c s.delimiter k hsi
        have hdl : 1 ≤ s.delimiter.length := by
          cases hdl : s.delimiter
          · exact absurd hdl hd
          · simp
        have hcond : k + s.delimiter.length ≤ c.length := hk
        have hstep := stepKV_disabled_some hq (e := e) (n := n) (a := acc) hguard hsi
        rw [if_pos hcond] at hstep
        have hlen2 : (c.drop (k + s.delimiter.length)).length < fuel := by
          simp only [List.length_drop]
          omega
        rcases ih (c.drop (k + s.delimiter.length)) hlen2 (k : Int)
            (procPair s (c.take k) e n).2.1 (procPair s (c.take k) e n).2.2
            (acc ++ (procPair s (c.take k) e n).1) with ⟨out, hout⟩
        refine ⟨out, ?_⟩
        rw [loopKV_succ_next hstep]
        exact hout
    · exact ⟨acc, loopKV_succ_done (stepKV_guard_false hguard)⟩

/-! ## The tagged loop projects onto the plain loop -/

/-- Tag erasure on a step outcome. -/
def eraseStep : StepResT → StepRes
  | StepResT.stepDoneT a => StepRes.stepDone (a.map Prod.fst)
  | StepResT.stepPanicT => StepRes.stepPanic
  | StepResT.stepNextT d c e n a => StepRes.stepNext d c e n (a.map Prod.fst)

theorem procPairT_fst (s : KeyValueSplitter) (pair : List Char) (e n : Nat) :
    (procPairT s pair e n).1.map Prod.fst = (procPair s pair e n).1 ∧
    (procPairT s pair e n).2 = (procPair s pair e n).2 := by
  cases hsi : strIndex pair s.separator with
  | none =>
    simp only [procPairT, procPair, hsi]
    split <;> simp
  | some pos =>
    simp only [procPairT, procPair, hsi]
    split <;> simp

theorem stepKVT_erase (s : KeyValueSplitter) (d : Int) (c : List Char) (e n : Nat)
    (accT : List (LogContent × PairTag)) :
    eraseStep (stepKVT s d c e n accT) = stepKV s d c e n (accT.map Prod.fst) := by
  rw [stepKVT, stepKV]
  split
  · rcases hcq : concatQuotePair s
        (if intIndex c s.delimiter = -1 then c else c.take (intIndex c s.delimiter).toNat)
        c (intIndex c s.delimiter) with _ | ⟨pair, dIdx⟩
    · simp [eraseStep]
    · simp only []
      rcases hppT : procPairT s pair e n with ⟨fsT, e2T, n2T⟩
      rcases hpp : procPair s pair e n with ⟨fs, e2, n2⟩
      have hrel := procPairT_fst s pair e n
      rw [hppT, hpp] at hrel
      simp only [] at hrel
      rcases hrel with ⟨hfs, h2⟩
      injection h2 with h2a h2b
      split
      · simp [eraseStep, hfs]
      · simp [eraseStep, hfs, h2a, h2b]
  · simp [eraseStep]

theorem loopKVT_succ_doneT {s : KeyValueSplitter} {fuel : Nat} {d : Int} {c : List Char}
    {e n : Nat} {accT a2 : List (LogContent × PairTag)}
    (hs : stepKVT s d c e n accT = StepResT.stepDoneT a2) :
    loopKVT s (fuel + 1) d c e n accT = some (KVResultT.okT a2) := by
  simp only [loopKVT, hs]

theorem loopKVT_succ_panicT {s : KeyValueSplitter} {fuel : Nat} {d : Int} {c : List Char}
    {e n : Nat} {accT : List (LogContent × PairTag)}
    (hs : stepKVT s d c e n accT = StepResT.stepPanicT) :
    loopKVT s (fuel + 1) d c e n accT = some KVResultT.panickedT := by
  simp only [loopKVT, hs]

theorem loopKVT_succ_nextT {s : KeyValueSplitter} {fuel : Nat} {d : Int} {c : List Char}
    {e n : Nat} {accT : List (LogContent × PairTag)} {d2 : Int} {c2 : List Char} {e2 n2 : Nat}
    {a2 : List (LogContent × PairTag)}
    (hs : stepKVT s d c e n accT = StepResT.stepNextT d2 c2 e2 n2 a2) :
    loopKVT s (fuel + 1) d c e n accT = loopKVT s fuel d2 c2 e2 n2 a2 := by
  simp only [loopKVT, hs]

theorem loopKVT_erase (s : KeyValueSplitter) :
    ∀ (fuel : Nat) (d : Int) (c : List Char) (e n : Nat)
      (accT : List (LogContent × PairTag)),
      eraseTags (loopKVT s fuel d c e n accT) = loopKV s fuel d c e n (accT.map Prod.fst) := by
  intro fuel
  induction fuel with
  | zero => intro d c e n accT; simp [loopKVT, loopKV, eraseTags]
  | succ fuel ih =>
    intro d c e n accT
    cases hsT : stepKVT s d c e n accT with
    | stepDoneT a2 =>
      have hs : stepKV s d c e n (accT.map Prod.fst) = StepRes.stepDone (a2.map Prod.fst) := by
        rw [← stepKVT_erase, hsT]
        rfl
      rw [loopKVT_succ_doneT hsT, loopKV_succ_done hs]
      rfl
    | stepPanicT =>
      have hs : stepKV s d c e n (accT.map Prod.fst) = StepRes.stepPanic := by
        rw [← stepKVT_erase, hsT]
        rfl
      rw [loopKVT_succ_panicT hsT, loopKV_succ_panic hs]
      rfl
    | stepNextT d2 c2 e2 n2 a2 =>
      have hs : stepKV s d c e n (accT.map Prod.fst) =
          StepRes.stepNext d2 c2 e2 n2 (a2.map Prod.fst) := by
        rw [← stepKVT_erase, hsT]
        rfl
      rw [loopKVT_succ_nextT hsT, loopKV_succ_next hs]
      exact ih d2 c2 e2 n2 a2

/-! ## The synthesized-key counters of the tagged loop -/

theorem tagKeys_append (t : PairTag) (a b : List (LogContent × PairTag)) :
    tagKeys t (a ++ b) = tagKeys t a ++ tagKeys t b := by
  induction a with
  | nil => simp [tagKeys]
  | cons hd tl ih =>
    rcases hd with ⟨f, tg⟩
    simp only [List.cons_append, tagKeys]
    split <;> simp [ih]

theorem procPairT_tags (s : KeyValueSplitter) (pair : List Char) (e n : Nat) :
    e ≤ (procPairT s pair e n).2.1 ∧ n ≤ (procPairT s pair e n).2.2 ∧
    tagKeys PairTag.emptyTag (procPairT s pair e n).1 =
      (List.range' e ((procPairT s pair e n).2.1 - e)).map (fun k => s.emptyKeyPrefix ++ itoa k) ∧
    tagKeys PairTag.noSepTag (procPairT s pair e n).1 =
      (List.range' n ((procPairT s pair e n).2.2 - n)).map
        (fun k => s.noSeparatorKeyPrefix ++ itoa k) := by
  cases hsi : strIndex pair s.separator with
  | none =>
    simp only [procPairT, hsi]
    split
    · simp [tagKeys]
    · simp [tagKeys]
  | some pos =>
    simp only [procPairT, hsi]
    split
    · simp [tagKeys]
    · simp [tagKeys]

theorem stepKVT_done_inv {s : KeyValueSplitter} {d : Int} {c : List Char} {e n : Nat}
    {accT a2 : List (LogContent × PairTag)}
    (h : stepKVT s d c e n accT = StepResT.stepDoneT a2) :
    a2 = accT ∨ ∃ pair, a2 = accT ++ (procPairT s pair e n).1 := by
  rw [stepKVT] at h
  split at h
  · split at h
    · exact absurd h (by simp)
    · rename_i pair dIdx heq
      split at h
      · rename_i fs e2 n2 hpp
        split at h
        · injection h with h
          exact Or.inr ⟨pair, by rw [← h, hpp]⟩
        · exact absurd h (by simp)
  · injection h with h
    exact Or.inl h.symm

theorem stepKVT_next_inv {s : KeyValueSplitter} {d : Int} {c : List Char} {e n : Nat}
    {accT : List (LogContent × PairTag)} {d2 : Int} {c2 : List Char} {e2 n2 : Nat}
    {a2 : List (LogContent × PairTag)}
    (h : stepKVT s d c e n accT = StepResT.stepNextT d2 c2 e2 n2 a2) :
    ∃ pair, a2 = accT ++ (procPairT s pair e n).1 ∧
      e2 = (procPairT s pair e n).2.1 ∧ n2 = (procPairT s pair e n).2.2 := by
  rw [stepKVT] at h
  split at h
  · split at h
    · exact absurd h (by simp)
    · rename_i pair dIdx heq
      split at h
      · rename_i fs e2x n2x hpp
        split at h
        · exact absurd h (by simp)
        · injection h with h1 h2 h3 h4 h5
          exact ⟨pair, by rw [← h5, hpp], by rw [← h3, hpp], by rw [← h4, hpp]⟩
  · exact absurd h (by simp)

theorem loopKVT_tags (s : KeyValueSplitter) :
    ∀ (fuel : Nat) (d : Int) (c : List Char) (e n : Nat)
      (accT out : List (LogContent × PairTag)),
      loopKVT s fuel d c e n accT = some (KVResultT.okT out) →
      ∃ jE jN,
        tagKeys PairTag.emptyTag out = tagKeys PairTag.emptyTag accT ++
          (List.range' e jE).map (fun k => s.emptyKeyPrefix ++ itoa k) ∧
        tagKeys PairTag.noSepTag out = tagKeys PairTag.noSepTag accT ++
          (List.range' n jN).map (fun k => s.noSeparatorKeyPrefix ++ itoa k) := by
  intro fuel
  induction fuel with
  | zero => intro d c e n accT out h; exact absurd h (by simp [loopKVT])
  | succ fuel ih =>
    intro d c e n accT out h
    cases hsT : stepKVT s d c e n accT with
    | stepDoneT a2 =>
      rw [loopKVT_succ_doneT hsT] at h
      injection h with h
      injection h with h
      subst h
      rcases stepKVT_done_inv hsT with h2 | ⟨pair, hpair⟩
      · subst h2
        exact ⟨0, 0, by simp, by simp⟩
      · have hpt := procPairT_tags s pair e n
        refine ⟨(procPairT s pair e n).2.1 - e, (procPairT s pair e n).2.2 - n, ?_, ?_⟩
        · rw [hpair, tagKeys_append, hpt.2.2.1]
        · rw [hpair, tagKeys_append, hpt.2.2.2]
    | stepPanicT =>
      rw [loopKVT_succ_panicT hsT] at h
      exact absurd h (by simp)
    | stepNextT d2 c2 e2 n2 a2 =>
      rw [loopKVT_succ_nextT hsT] at h
      rcases ih d2 c2 e2 n2 a2 out h with ⟨jE2, jN2, hE2, hN2⟩
      rcases stepKVT_next_inv hsT with ⟨pair, hpair, he2, hn2⟩
      have hpt := procPairT_tags s pair e n
      refine ⟨jE2 + (e2 - e), jN2 + (n2 - n), ?_, ?_⟩
      · have hcomb : List.range' e (e2 - e) ++ List.range' e2 jE2 =
            List.range' e (jE2 + (e2 - e)) := by
          have hle : e ≤ e2 := by rw [he2]; exact hpt.1
          have h0 := List.range'_append e (e2 - e) jE2 1
          rw [one_mul, Nat.add_sub_cancel' hle] at h0
          exact h0
        rw [hE2, hpair, tagKeys_append, hpt.2.2.1, ← he2, List.append_assoc,
          ← List.map_append, hcomb]
      · have hcomb : List.range' n (n2 - n) ++ List.range' n2 jN2 =
            List.range' n (jN2 + (n2 - n)) := by
          have hle : n ≤ n2 := by rw [hn2]; exact hpt.2.1
          have h0 := List.range'_append n (n2 - n) jN2 1
          rw [one_mul, Nat.add_sub_cancel' hle] at h0
          exact h0
        rw [hN2, hpair, tagKeys_append, hpt.2.2.2, ← hn2, List.append_assoc,
          ← List.map_append, hcomb]

/-- Quoting enabled with a double-quote character on top of the defaults. -/
def cfgQuote : KeyValueSplitter :=
  { defaultSplitter with quoteFlag := true, quote := "\"".toList }

/-- Default configuration with an explicit source key. -/
def cfgSrcKey : KeyValueSplitter := { defaultSplitter with sourceKey := "src".toList }

/-! ## Claim theorems -/

/-- C1: the claim states that with the default configuration (delimiter tab,
separator colon, quoting disabled) splitting the source value `a:1<TAB>b:2`
appends exactly `("a","1")` and `("b","2")`.  The code appends only
`("a","1")`: after the first pair is consumed the loop guard compares the
stale delimiter index 3 against the remaining content `b:2` of length 3 and
exits.  The claim (spec Scenario 1) is the clear intent of the splitter and
the stale-index guard a slip, so this is recorded as a code bug; this theorem
evaluates the model at the failing input. -/
theorem c1_default_split_truncates :
    splitKeyValue defaultSplitter "a:1\tb:2".toList =
      some (KVResult.ok [⟨"a".toList, "1".toList⟩]) ∧
    splitKeyValue defaultSplitter "a:1\tb:2".toList ≠
      some (KVResult.ok [⟨"a".toList, "1".toList⟩, ⟨"b".toList, "2".toList⟩]) := by
  constructor
  · decide
  · decide

/-- C2 counterexample: the claim states that every configuration with a
non-empty delimiter terminates on every input.  With delimiter `ab`,
separator `:`, quoting enabled with quote `q`, on content `x:qzabuqv` the
quote re-index moves `dIdx` to 8, `8 + 2 > 9` leaves the content unchanged,
and the guard `8 < 9` re-enters the loop in an identical state: the loop
never exits (every fuel is exhausted), refuting the claim. -/
theorem c2_quoting_can_diverge : splitDiverges cfgDiv contentDiv ∧
    cfgDiv.delimiter ≠ [] ∧ splitKeyValue cfgDiv contentDiv = none := by
  have key : ∀ (fuel : Nat) (e n : Nat) (acc : List LogContent),
      loopKV cfgDiv fuel 8 contentDiv e n acc = none := by
    intro fuel
    induction fuel with
    | zero => intro e n acc; rfl
    | succ fuel ih =>
      intro e n acc
      have hs : stepKV cfgDiv 8 contentDiv e n acc =
          StepRes.stepNext 8 contentDiv e n (acc ++ [⟨"x".toList, "zabu".toList⟩]) := rfl
      rw [loopKV_succ_next hs]
      exact ih e n (acc ++ [⟨"x".toList, "zabu".toList⟩])
  have hdiv : splitDiverges cfgDiv contentDiv := by
    intro fuel
    cases fuel with
    | zero => rfl
    | succ fuel =>
      have hs : stepKV cfgDiv 0 contentDiv 0 0 [] =
          StepRes.stepNext 8 contentDiv 0 0 [⟨"x".toList, "zabu".toList⟩] := rfl
      rw [loopKV_succ_next hs]
      exact key fuel 0 0 [⟨"x".toList, "zabu".toList⟩]
  exact ⟨hdiv, by decide, hdiv (contentDiv.length + 2)⟩

/-- C2 amended: for every configuration with a non-empty delimiter and
quoting disabled (`QuoteFlag` unset or an empty quote string), the
pair-splitting loop terminates normally on every input — the single
left-to-right scan strictly shrinks the remaining content on every continuing
iteration, so it exits within `len(content) + 2` iterations and in particular
appends only finitely many fields. -/
theorem c2_terminates_when_quoting_disabled (s : KeyValueSplitter) (content : List Char)
    (hq : s.quoteFlag = false ∨ s.quote = []) (hd : s.delimiter ≠ []) :
    ∃ out, splitKeyValue s content = some (KVResult.ok out) := by
  rw [splitKeyValue, splitKeyValueFrom]
  exact loopKV_term hq hd (content.length + 2) content (by omega) 0 0 0 []

/-- C2 witness: the amended termination theorem applied to the default
configuration on the input `a:1`. -/
theorem c2_terminates_witness :
    (defaultSplitter.quoteFlag = false ∨ defaultSplitter.quote = []) ∧
    defaultSplitter.delimiter ≠ [] ∧
    ∃ out, splitKeyValue defaultSplitter "a:1".toList = some (KVResult.ok out) :=
  ⟨Or.inl rfl, by decide,
    c2_terminates_when_quoting_disabled defaultSplitter "a:1".toList (Or.inl rfl) (by decide)⟩

/-- C5: with quoting enabled (quote a double-quote character), separator `:`
and delimiter tab, splitting `c:"x<TAB>y"` appends exactly the single field
`("c", "x<TAB>y")`: the delimiter inside the quoted value does not split the
pair and the surrounding quotes are stripped. -/
theorem c5_quoted_delimiter_single_field :
    splitKeyValue cfgQuote "c:\"x\ty\"".toList =
      some (KVResult.ok [⟨"c".toList, "x\ty".toList⟩]) := by
  decide

theorem findSource_eq_none {s : KeyValueSplitter} :
    ∀ (i : Nat) (contents : List LogContent),
      (∀ c ∈ contents, ¬ (s.sourceKey = [] ∨ s.sourceKey = c.key)) →
      findSource s i contents = none := by
  intro i contents
  induction contents generalizing i with
  | nil => intro _; rfl
  | cons hd tl ih =>
    intro h
    simp only [findSource]
    rw [if_neg (h hd (by simp))]
    exact ih (i + 1) (fun c hc => h c (by simp [hc]))

/-- C8: for every record in which no field matches the configured source key
(with an empty source key this means the record has no fields, since an empty
source key matches any field), processing leaves the record completely
unchanged, whatever the diagnostic toggles are set to — the
`ErrIfSourceKeyNotFound` warning is pure observability and is not part of the
record model. -/
theorem c8_source_absent_unchanged (s : KeyValueSplitter) (contents : List LogContent)
    (h : ∀ c ∈ contents, ¬ (s.sourceKey = [] ∨ s.sourceKey = c.key)) :
    processLog s contents = some (KVResult.ok contents) := by
  rw [processLog, findSource_eq_none 0 contents h]

/-- C8 witness: a record whose single field does not match the source key
`src` passes through unchanged. -/
theorem c8_source_absent_witness :
    processLog cfgSrcKey [⟨"other".toList, "v".toList⟩] =
      some (KVResult.ok [⟨"other".toList, "v".toList⟩]) :=
  c8_source_absent_unchanged cfgSrcKey [⟨"other".toList, "v".toList⟩] (by decide)

/-- C6: for every configuration and record, when processing completes
normally the resulting record is the original fields in their original order
— with exactly the first source-matching field removed when one is found and
`KeepSource` is false — followed only by newly appended fields; no
pre-existing field is mutated, and the field count can only grow, or shrink
by exactly one when the source field is removed and nothing is appended. -/
theorem c6_frame_append_only (s : KeyValueSplitter) (contents r : List LogContent)
    (h : processLog s contents = some (KVResult.ok r)) :
    (∃ new, r = contents ++ new) ∨
    (s.keepSource = false ∧ ∃ i c new, findSource s 0 contents = some (i, c) ∧
      r = contents.eraseIdx i ++ new) := by
  rw [processLog] at h
  rcases hf : findSource s 0 contents with _ | ⟨i, c⟩
  · rw [hf] at h
    simp only [Option.some.injEq, KVResult.ok.injEq] at h
    exact Or.inl ⟨[], by simp [h]⟩
  · rw [hf] at h
    simp only [] at h
    by_cases hk : s.keepSource = true
    · rw [if_pos hk, splitKeyValueFrom] at h
      rcases loopKV_append _ _ _ _ _ _ _ h with ⟨new, hnew⟩
      exact Or.inl ⟨new, hnew⟩
    · rw [if_neg hk, splitKeyValueFrom] at h
      rcases loopKV_append _ _ _ _ _ _ _ h with ⟨new, hnew⟩
      exact Or.inr ⟨by simpa using hk, i, c, new, rfl, hnew⟩

/-- C6 witness: the frame theorem applied to the default configuration
processing the one-field record `[(k, a:1)]`, which appends `("a","1")`. -/
theorem c6_frame_witness :
    (∃ new, [(⟨"k".toList, "a:1".toList⟩ : LogContent), ⟨"a".toList, "1".toList⟩] =
      [(⟨"k".toList, "a:1".toList⟩ : LogContent)] ++ new) ∨
    (defaultSplitter.keepSource = false ∧ ∃ i c new,
      findSource defaultSplitter 0 [(⟨"k".toList, "a:1".toList⟩ : LogContent)] = some (i, c) ∧
      [(⟨"k".toList, "a:1".toList⟩ : LogContent), ⟨"a".toList, "1".toList⟩] =
        ([(⟨"k".toList, "a:1".toList⟩ : LogContent)].eraseIdx i) ++ new) :=
  c6_frame_append_only defaultSplitter [⟨"k".toList, "a:1".toList⟩]
    [⟨"k".toList, "a:1".toList⟩, ⟨"a".toList, "1".toList⟩] (by decide)

theorem splitKV_disabled_nodelim (s : KeyValueSplitter) (content : List Char)
    (hq : s.quoteFlag = false ∨ s.quote = []) (hc : content ≠ [])
    (hsi : strIndex content s.delimiter = none) :
    splitKeyValue s content = some (KVResult.ok (procPair s content 0 0).1) := by
  have hguard : (0 : Int) < (content.length : Int) := by
    cases hcc : content
    · exact absurd hcc hc
    · simp
  have hstep := stepKV_disabled_none hq (d := 0) (e := 0) (n := 0) (a := []) hguard hsi
  rw [splitKeyValue, splitKeyValueFrom]
  rw [show content.length + 2 = (content.length + 1) + 1 from rfl]
  rw [loopKV_succ_done hstep]
  simp

/-- C4 counterexample: the claim states that for every configuration, a
non-empty source value containing a separator and no delimiter yields exactly
one appended field.  With quoting enabled (quote `q`) and
`DiscardWhenSeparatorNotFound`, on content `q:x` the quote re-index truncates
the pair to `q` before the separator, the separator is then not found, and
the pair is discarded: zero fields are appended. -/
theorem c4_quote_discard_zero_fields :
    goContains "q:x".toList cfgQDiscard.separator = true ∧
    goContains "q:x".toList cfgQDiscard.delimiter = false ∧
    "q:x".toList ≠ [] ∧
    splitKeyValue cfgQDiscard "q:x".toList = some (KVResult.ok []) := by
  refine ⟨by decide, by decide, by decide, by decide⟩

/-- C4 amended: for every configuration with quoting disabled and every
non-empty source value that contains at least one occurrence of the separator
and no occurrence of the delimiter, the pair-splitting algorithm appends
exactly one key/value field to the record. -/
theorem c4_single_field_when_quoting_disabled (s : KeyValueSplitter) (content : List Char)
    (hq : s.quoteFlag = false ∨ s.quote = []) (hne : content ≠ [])
    (hsep : goContains content s.separator = true)
    (hdel : goContains content s.delimiter = false) :
    ∃ f, splitKeyValue s content = some (KVResult.ok [f]) := by
  have hsi := goContains_false_iff.mp hdel
  rcases goContains_true_iff.mp hsep with ⟨pos, hpos⟩
  rw [splitKV_disabled_nodelim s content hq hne hsi]
  simp only [procPair, hpos]
  split
  · exact ⟨_, rfl⟩
  · exact ⟨_, rfl⟩

/-- C4 witness: the amended theorem applied to the default configuration on
the one-pair input `a:1`. -/
theorem c4_single_field_witness :
    (defaultSplitter.quoteFlag = false ∨ defaultSplitter.quote = []) ∧
    "a:1".toList ≠ [] ∧
    goContains "a:1".toList defaultSplitter.separator = true ∧
    goContains "a:1".toList defaultSplitter.delimiter = false ∧
    ∃ f, splitKeyValue defaultSplitter "a:1".toList = some (KVResult.ok [f]) :=
  ⟨Or.inl rfl, by decide, by decide, by decide,
    c4_single_field_when_quoting_disabled defaultSplitter "a:1".toList (Or.inl rfl)
      (by decide) (by decide) (by decide)⟩

/-- C3 counterexample: the claim states that a source value ending with the
delimiter yields a final empty-string pair, so that with
`DiscardWhenSeparatorNotFound` false a synthesized no-separator field with
empty value is appended for the trailing pair.  With the default
configuration on `a:1<TAB>` the output is exactly `[("a","1")]`: no field
with the key `no_separator_key_0` (or any empty value) is appended. -/
theorem c3_no_trailing_empty_pair :
    splitKeyValue defaultSplitter "a:1\t".toList =
      some (KVResult.ok [⟨"a".toList, "1".toList⟩]) ∧
    defaultSplitter.discardWhenSeparatorNotFound = false ∧
    (∀ f ∈ [(⟨"a".toList, "1".toList⟩ : LogContent)],
      f.key ≠ "no_separator_key_0".toList ∧ f.value ≠ []) := by
  refine ⟨by decide, by decide, by decide⟩

/-- C3 amended: with quoting disabled (QuoteFlag unset or an empty quote
string), when the first delimiter occurrence in the source value is the
trailing one (the value ends with the delimiter and has nothing after it),
the algorithm processes only the pair before that delimiter and exits: the
output is exactly the fields of that single pair, and no final empty-string
pair is extracted, because after consuming the trailing delimiter the stale
index is at least the (empty) remainder's length.  The quoting-disabled
restriction is necessary: with quote `q` enabled, on `x:qab<TAB>` the quote
re-index extends the pair across the trailing delimiter, giving the single
field `("x", "qab<TAB>")` rather than the pair before the delimiter, and on
`x:qzuqvab` with delimiter `ab` the loop never exits at all. -/
theorem c3_trailing_delimiter_last_pair (s : KeyValueSplitter) (content : List Char)
    (hq : s.quoteFlag = false ∨ s.quote = []) (hd : s.delimiter ≠ [])
    (hsi : strIndex content s.delimiter = some (content.length - s.delimiter.length)) :
    splitKeyValue s content = some (KVResult.ok
      (procPair s (content.take (content.length - s.delimiter.length)) 0 0).1) := by
  have hle := strIndex_some_le _ _ _ hsi
  have hd1 : 1 ≤ s.delimiter.length := by
    cases hdl : s.delimiter
    · exact absurd hdl hd
    · simp
  have hdlen : s.delimiter.length ≤ content.length := by omega
  have hguard : (0 : Int) < (content.length : Int) := by
    have : 1 ≤ content.length := by omega
    omega
  have hstep := stepKV_disabled_some hq (d := 0) (e := 0) (n := 0) (a := []) hguard hsi
  rw [if_pos (by omega : content.length - s.delimiter.length + s.delimiter.length ≤
    content.length)] at hstep
  rw [show content.length - s.delimiter.length + s.delimiter.length = content.length by omega,
    List.drop_length] at hstep
  rw [splitKeyValue, splitKeyValueFrom]
  rw [show content.length + 2 = (content.length + 1) + 1 from rfl]
  rw [loopKV_succ_next hstep]
  have hstep2 := stepKV_guard_false
    (s := s) (d := ((content.length - s.delimiter.length : Nat) : Int)) (c := [])
    (e := (procPair s (content.take (content.length - s.delimiter.length)) 0 0).2.1)
    (n := (procPair s (content.take (content.length - s.delimiter.length)) 0 0).2.2)
    (a := [] ++ (procPair s (content.take (content.length - s.delimiter.length)) 0 0).1)
    (by simp)
  rw [show content.length + 1 = content.length + 1 from rfl]
  rw [loopKV_succ_done hstep2]
  simp

/-- C3 witness: the amended theorem applied to the default configuration on
`a:1<TAB>`, whose first delimiter occurrence is the trailing one. -/
theorem c3_trailing_delimiter_witness :
    splitKeyValue defaultSplitter "a:1\t".toList = some (KVResult.ok
      (procPair defaultSplitter
        ("a:1\t".toList.take ("a:1\t".toList.length - defaultSplitter.delimiter.length)) 0 0).1) :=
  c3_trailing_delimiter_last_pair defaultSplitter "a:1\t".toList (Or.inl rfl)
    (by decide) (by decide)

/-- C10: for every source value that begins with the delimiter (quoting
disabled, non-empty delimiter and separator), the first extracted pair is the
empty string and goes through the no-separator policy: with
`DiscardWhenSeparatorNotFound` false the field `(NoSeparatorKeyPrefix + "0",
"")` is appended before any other derived field; with it true nothing at all
is appended for the leading empty pair — the run is identical to the run on
the value with the leading delimiter removed. -/
theorem c10_leading_delimiter_policy (s : KeyValueSplitter) (rest : List Char)
    (hq : s.quoteFlag = false ∨ s.quote = []) (hd : s.delimiter ≠ [])
    (hsep : s.separator ≠ []) :
    (s.discardWhenSeparatorNotFound = false →
      ∃ tail, splitKeyValue s (s.delimiter ++ rest) =
        some (KVResult.ok (⟨s.noSeparatorKeyPrefix ++ itoa 0, []⟩ :: tail))) ∧
    (s.discardWhenSeparatorNotFound = true →
      splitKeyValue s (s.delimiter ++ rest) = splitKeyValue s rest) := by
  have hd1 : 1 ≤ s.delimiter.length := by
    cases hdl : s.delimiter
    · exact absurd hdl hd
    · simp
  have hsi : strIndex (s.delimiter ++ rest) s.delimiter = some 0 :=
    strIndex_of_isPrefixOf (List.isPrefixOf_iff_prefix.mpr (List.prefix_append _ _))
  have hguard : (0 : Int) < ((s.delimiter ++ rest).length : Int) := by
    simp only [List.length_append]
    omega
  have hstep := stepKV_disabled_some hq (d := 0) (e := 0) (n := 0) (a := []) hguard hsi
  rw [List.take_zero, Nat.zero_add,
    if_pos (by simp only [List.length_append]; omega :
      s.delimiter.length ≤ (s.delimiter ++ rest).length),
    List.drop_left] at hstep
  constructor
  · intro hdisc
    have hpp : procPair s [] 0 0 = ([⟨s.noSeparatorKeyPrefix ++ itoa 0, []⟩], 0, 1) := by
      rw [procPair, strIndex_nil_of_ne hsep]
      simp only [hdisc, Bool.false_eq_true, if_false, getValue_disabled hq]
    rw [hpp] at hstep
    rw [splitKeyValue, splitKeyValueFrom]
    rw [show (s.delimiter ++ rest).length + 2 = ((s.delimiter ++ rest).length + 1) + 1 from rfl]
    rw [loopKV_succ_next hstep]
    have hrl : rest.length < (s.delimiter ++ rest).length + 1 := by
      simp only [List.length_append]
      omega
    rcases loopKV_term hq hd ((s.delimiter ++ rest).length + 1) rest hrl 0 0 1
      [⟨s.noSeparatorKeyPrefix ++ itoa 0, []⟩] with ⟨out, hout⟩
    rcases loopKV_append _ _ _ _ _ _ _ hout with ⟨new, hnew⟩
    rw [hnew] at hout
    exact ⟨new, hout⟩
  · intro hdisc
    have hpp : procPair s [] 0 0 = ([], 0, 0) := by
      rw [procPair, strIndex_nil_of_ne hsep]
      simp only [hdisc, if_true]
    rw [hpp] at hstep
    rw [splitKeyValue, splitKeyValueFrom]
    rw [show (s.delimiter ++ rest).length + 2 = ((s.delimiter ++ rest).length + 1) + 1 from rfl]
    rw [loopKV_succ_next hstep]
    rw [splitKeyValue, splitKeyValueFrom]
    rcases loopKV_term hq hd (rest.length + 2) rest (by omega) 0 0 0 [] with ⟨out, hout⟩
    rw [hout]
    exact loopKV_mono (rest.length + 2) ((s.delimiter ++ rest).length + 1)
      (by simp only [List.length_append]; omega) 0 rest 0 0 [] (KVResult.ok out) hout

/-- C10 witness: default configuration (discard false) and its discard-true
variant on the value `<TAB>b:2zzzz`. -/
theorem c10_leading_delimiter_witness :
    (defaultSplitter.discardWhenSeparatorNotFound = false →
      ∃ tail, splitKeyValue defaultSplitter (defaultSplitter.delimiter ++ "b:2zzzz".toList) =
        some (KVResult.ok
          (⟨defaultSplitter.noSeparatorKeyPrefix ++ itoa 0, []⟩ :: tail))) ∧
    (defaultSplitter.discardWhenSeparatorNotFound = true →
      splitKeyValue defaultSplitter (defaultSplitter.delimiter ++ "b:2zzzz".toList) =
        splitKeyValue defaultSplitter "b:2zzzz".toList) :=
  c10_leading_delimiter_policy defaultSplitter "b:2zzzz".toList (Or.inl rfl)
    (by decide) (by decide)

/-- C9 counterexample: the claim states that whenever a candidate pair
appears to open a quote, no quote occurs after the current delimiter
boundary, and `len(separator)+len(quote) >= 2`, the boundary advances by
`len(separator)+len(quote)-1` and the pair is re-extracted up to the new
boundary.  With separator `::` and quote `Q`, pair `x::Qy` and content
`x::Qy<TAB>` at boundary 5, all of the claim's conditions hold and the new
boundary would be 7, but the content has length 6: the re-extraction
`content[:7]` is out of range — the code panics instead of re-extracting. -/
theorem c9_reindex_out_of_range :
    cfgQ2Sep.quoteFlag = true ∧
    List.isSuffixOf cfgQ2Sep.quote "x::Qy".toList = false ∧
    0 < intIndex "x::Qy".toList (cfgQ2Sep.separator ++ cfgQ2Sep.quote) ∧
    strIndex ("x::Qy\t".toList.drop ((5 : Int) + 1).toNat) cfgQ2Sep.quote = none ∧
    2 ≤ cfgQ2Sep.separator.length + cfgQ2Sep.quote.length ∧
    concatQuotePair cfgQ2Sep "x::Qy".toList "x::Qy\t".toList 5 = none := by
  refine ⟨by decide, by decide, by decide, by decide, by decide, by decide⟩

/-- C9 amended: under the claim's conditions (quoting on, the pair does not
end with the quote, the pair contains separator-then-quote past position 0 or
starts with the quote, no quote occurs after the current boundary, and
`len(separator)+len(quote) >= 2`), and provided the advanced boundary
`dIdx + len(separator) + len(quote) - 1` does not exceed the content length,
`concatQuotePair` advances the boundary by `len(separator)+len(quote)-1` (the
not-found index -1 offset by `len(separator)+len(quote)`) and re-extracts the
pair up to that new boundary, even though no closing quote follows; when the
advanced boundary exceeds the content length the slice is out of range
instead (see the counterexample). -/
theorem c9_quote_reindex_advances (s : KeyValueSplitter) (pair content : List Char) (dIdx : Int)
    (h1 : s.quoteFlag = true) (h2 : s.quote ≠ [])
    (h3 : List.isSuffixOf s.quote pair = false)
    (h4 : 0 < intIndex pair (s.separator ++ s.quote) ∨ s.quote.isPrefixOf pair = true)
    (h5 : 0 ≤ dIdx + 1) (h6 : dIdx + 1 ≤ (content.length : Int))
    (h7 : strIndex (content.drop (dIdx + 1).toNat) s.quote = none)
    (h8 : 2 ≤ s.separator.length + s.quote.length)
    (h9 : dIdx + ((s.separator.length : Int) + (s.quote.length : Int)) - 1 ≤
      (content.length : Int)) :
    concatQuotePair s pair content dIdx =
      some (content.take (dIdx + ((s.separator.length : Int) + (s.quote.length : Int)) - 1).toNat,
        dIdx + ((s.separator.length : Int) + (s.quote.length : Int)) - 1) := by
  rw [concatQuotePair, if_pos ⟨h1, h2, h3⟩]
  have hslice : goSliceFrom content (dIdx + 1) = some (content.drop (dIdx + 1).toNat) := by
    rw [goSliceFrom, if_pos ⟨h5, h6⟩]
  have hlq : intIndex (content.drop (dIdx + 1).toNat) s.quote = -1 := by
    rw [intIndex, h7]
  rw [hslice]
  simp only [hlq]
  rw [if_pos h4]
  rw [if_pos (by omega : (0 : Int) < -1 + ((s.separator.length : Int) + (s.quote.length : Int)))]
  have harith : dIdx + (-1 + ((s.separator.length : Int) + (s.quote.length : Int))) =
      dIdx + ((s.separator.length : Int) + (s.quote.length : Int)) - 1 := by ring
  rw [harith]
  have hslice2 : goSliceTo content
      (dIdx + ((s.separator.length : Int) + (s.quote.length : Int)) - 1) =
      some (content.take
        (dIdx + ((s.separator.length : Int) + (s.quote.length : Int)) - 1).toNat) := by
    rw [goSliceTo, if_pos ⟨by omega, h9⟩]
  rw [hslice2]

/-- C9 witness: the amended theorem applied to separator `::`, quote `Q`,
pair `x::Qy`, content `x::Qy<TAB>zw`, boundary 5: the boundary advances to 7
and the pair is re-extracted as `x::Qy<TAB>z`. -/
theorem c9_quote_reindex_witness :
    concatQuotePair cfgQ2Sep "x::Qy".toList "x::Qy\tzw".toList 5 =
      some ("x::Qy\tzw".toList.take
          ((5 : Int) + ((cfgQ2Sep.separator.length : Int) + (cfgQ2Sep.quote.length : Int))
            - 1).toNat,
        (5 : Int) + ((cfgQ2Sep.separator.length : Int) + (cfgQ2Sep.quote.length : Int)) - 1) :=
  c9_quote_reindex_advances cfgQ2Sep "x::Qy".toList "x::Qy\tzw".toList 5 rfl (by decide)
    (by decide) (by decide) (by decide) (by decide) (by decide) (by decide) (by decide)

/-- C7: in any completed run of the (tag-instrumented) pair-splitting
algorithm, erasing the tags gives exactly the plain algorithm's output, the
keys of the fields synthesized by the empty-key branch are, in append order,
`EmptyKeyPrefix + "0"`, `EmptyKeyPrefix + "1"`, … (the Nth such field carries
suffix N-1, 0-indexed), and likewise, independently, the keys of the fields
synthesized by the no-separator branch are `NoSeparatorKeyPrefix + "0"`,
`NoSeparatorKeyPrefix + "1"`, …; both counters restart at 0 for each source
value processed, since every invocation starts them at 0. -/
theorem c7_synthesized_key_counters (s : KeyValueSplitter) (content : List Char)
    (out : List (LogContent × PairTag))
    (h : splitKeyValueT s content = some (KVResultT.okT out)) :
    splitKeyValue s content = some (KVResult.ok (out.map Prod.fst)) ∧
    tagKeys PairTag.emptyTag out =
      (List.range (tagKeys PairTag.emptyTag out).length).map
        (fun k => s.emptyKeyPrefix ++ itoa k) ∧
    tagKeys PairTag.noSepTag out =
      (List.range (tagKeys PairTag.noSepTag out).length).map
        (fun k => s.noSeparatorKeyPrefix ++ itoa k) := by
  rw [splitKeyValueT] at h
  refine ⟨?_, ?_, ?_⟩
  · have her := loopKVT_erase s (content.length + 2) 0 content 0 0 []
    rw [h] at her
    rw [splitKeyValue, splitKeyValueFrom]
    exact her.symm
  · rcases loopKVT_tags s (content.length + 2) 0 content 0 0 [] out h with ⟨jE, jN, hE, hN⟩
    simp only [tagKeys, List.nil_append] at hE
    rw [hE]
    simp [List.range_eq_range', List.length_range']
  · rcases loopKVT_tags s (content.length + 2) 0 content 0 0 [] out h with ⟨jE, jN, hE, hN⟩
    simp only [tagKeys, List.nil_append] at hN
    rw [hN]
    simp [List.range_eq_range', List.length_range']

/-- C7 witness: the counter theorem applied to the default configuration on
`:1<TAB>nop<TAB>:2<TAB>blah blah<TAB>c:3`, whose completed run synthesizes
two empty-key fields (suffixes 0, 1) and two no-separator fields (suffixes
0, 1), interleaved. -/
theorem c7_synthesized_key_witness :
    splitKeyValue defaultSplitter ":1\tnop\t:2\tblah blah\tc:3".toList =
      some (KVResult.ok (([((⟨"empty_key_0".toList, "1".toList⟩ : LogContent),
          PairTag.emptyTag),
        (⟨"no_separator_key_0".toList, "nop".toList⟩, PairTag.noSepTag),
        (⟨"empty_key_1".toList, "2".toList⟩, PairTag.emptyTag),
        (⟨"no_separator_key_1".toList, "blah blah".toList⟩, PairTag.noSepTag)]).map
          Prod.fst)) ∧
    tagKeys PairTag.emptyTag [((⟨"empty_key_0".toList, "1".toList⟩ : LogContent),
        PairTag.emptyTag),
      (⟨"no_separator_key_0".toList, "nop".toList⟩, PairTag.noSepTag),
      (⟨"empty_key_1".toList, "2".toList⟩, PairTag.emptyTag),
      (⟨"no_separator_key_1".toList, "blah blah".toList⟩, PairTag.noSepTag)] =
      (List.range (tagKeys PairTag.emptyTag [((⟨"empty_key_0".toList, "1".toList⟩ : LogContent),
          PairTag.emptyTag),
        (⟨"no_separator_key_0".toList, "nop".toList⟩, PairTag.noSepTag),
        (⟨"empty_key_1".toList, "2".toList⟩, PairTag.emptyTag),
        (⟨"no_separator_key_1".toList, "blah blah".toList⟩, PairTag.noSepTag)]).length).map
        (fun k => defaultSplitter.emptyKeyPrefix ++ itoa k) ∧
    tagKeys PairTag.noSepTag [((⟨"empty_key_0".toList, "1".toList⟩ : LogContent),
        PairTag.emptyTag),
      (⟨"no_separator_key_0".toList, "nop".toList⟩, PairTag.noSepTag),
      (⟨"empty_key_1".toList, "2".toList⟩, PairTag.emptyTag),
      (⟨"no_separator_key_1".toList, "blah blah".toList⟩, PairTag.noSepTag)] =
      (List.range (tagKeys PairTag.noSepTag [((⟨"empty_key_0".toList, "1".toList⟩ : LogContent),
          PairTag.emptyTag),
        (⟨"no_separator_key_0".toList, "nop".toList⟩, PairTag.noSepTag),
        (⟨"empty_key_1".toList, "2".toList⟩, PairTag.emptyTag),
        (⟨"no_separator_key_1".toList, "blah blah".toList⟩, PairTag.noSepTag)]).length).map
        (fun k => defaultSplitter.noSeparatorKeyPrefix ++ itoa k) :=
  c7_synthesized_key_counters defaultSplitter ":1\tnop\t:2\tblah blah\tc:3".toList
    [((⟨"empty_key_0".toList, "1".toList⟩ : LogContent), PairTag.emptyTag),
      (⟨"no_separator_key_0".toList, "nop".toList⟩, PairTag.noSepTag),
      (⟨"empty_key_1".toList, "2".toList⟩, PairTag.emptyTag),
      (⟨"no_separator_key_1".toList, "blah blah".toList⟩, PairTag.noSepTag)]
    (by decide)
